import Mathlib

/-!
Shallow embedding of `ext/gitsha.c` (the GitSha vanity-commit brute-forcer).

Byte buffers are modelled as `List Nat` (each element an octet), sizes and
offsets as `Nat` with explicit `% 2 ^ 64` where the C `size_t` arithmetic can
wrap, and the unbounded C search loops as fuel-indexed functions returning
`Option` (`none` = the loop has not returned within the given fuel).  The
SHA-1 function itself lives in OpenSSL, outside this repository; the loops are
therefore parametrised over an arbitrary `hash : List Nat → List Nat`, which
is sound because no claim depends on properties of SHA-1 beyond its output
being the 20-byte digest of the hashed buffer.

The C identifier `prefix` is rendered `pfx` here; otherwise the source names
are kept.
-/

namespace GitSha

/-- Translation of `hex_lut = "0123456789abcdef"` (gitsha.c line 7). -/
def hex_lut : String := "0123456789abcdef"

/-- The bytes of `hex_lut`, since the scratch buffer is modelled as a byte list. -/
def hex_lut_bytes : List Nat := hex_lut.toList.map Char.toNat

/-- Translation of `header_len` (gitsha.c lines 9-15): the length of
`sprintf("commit %zu", data_len)` plus one for the trailing NUL byte. -/
def header_len (data_len : Nat) : Nat :=
  ("commit " ++ toString data_len).length + 1

/-- The bytes written by `sprintf(scratch_buff, "commit %zu", data_length)`
(gitsha.c line 131): the ASCII rendering of the header followed by the
terminating NUL byte, which stays in the buffer at index `header_len - 1`. -/
def header_bytes (data_len : Nat) : List Nat :=
  ("commit " ++ toString data_len).toList.map Char.toNat ++ [0]

/-- Translation of `write_counter_hex` (gitsha.c lines 17-24):
`buff[i] = hex_lut[(counter >> (i * 4)) & 0xf]` for `0 <= i < 16`,
least-significant nibble first.  Rendered as the 16-byte list that the C code
stores into `buff[0..15]`. -/
def write_counter_hex (counter : Nat) : List Nat :=
  (List.range 16).map fun i => hex_lut_bytes.getD ((counter >>> (i * 4)) &&& 15) 0

/-- In-place overwrite of `xs.length` bytes of `buff` starting at offset `off`,
modelling a `memcpy`-style store into the scratch buffer. -/
def writeAt (buff : List Nat) (off : Nat) (xs : List Nat) : List Nat :=
  buff.take off ++ xs ++ buff.drop (off + xs.length)

/-- Translation of `bruteforce_loop` (gitsha.c lines 46-60), fuel-indexed.
Each iteration writes the hex nonce at `counter_offset`, hashes the whole
buffer, and returns `(sha, buffer)` when the first `pfx_len` bytes of the
digest agree with the first `pfx_len` bytes of `pfx` (the `memcmp`); otherwise
the counter advances by `stride` with `size_t` wraparound.  `none` models
"still running after `fuel` iterations". -/
def bruteforce_loop (hash : List Nat → List Nat) (fuel : Nat) (scratch_buff : List Nat)
    (counter_offset : Nat) (pfx : List Nat) (pfx_len : Nat) (counter stride : Nat) :
    Option (List Nat × List Nat) :=
  match fuel with
  | 0 => none
  | fuel + 1 =>
    let buff := writeAt scratch_buff counter_offset (write_counter_hex counter)
    let sha := hash buff
    if sha.take pfx_len = pfx.take pfx_len then
      some (sha, buff)
    else
      bruteforce_loop hash fuel buff counter_offset pfx pfx_len
        ((counter + stride) % 2 ^ 64) stride

/-- Translation of `bruteforce_loop_with_half_dig` (gitsha.c lines 62-76).
The match condition is
`(prefix_len == 0 || memcmp(sha, prefix, prefix_len) == 0) && (sha[prefix_len] >> 4) == half_dig`;
the read `sha[prefix_len]` is modelled with `List.getD`, which the claims only
use at indices below the 20-byte digest length. -/
def bruteforce_loop_with_half_dig (hash : List Nat → List Nat) (fuel : Nat)
    (scratch_buff : List Nat) (counter_offset : Nat) (pfx : List Nat) (pfx_len : Nat)
    (counter stride : Nat) (half_dig : Nat) : Option (List Nat × List Nat) :=
  match fuel with
  | 0 => none
  | fuel + 1 =>
    let buff := writeAt scratch_buff counter_offset (write_counter_hex counter)
    let sha := hash buff
    if (pfx_len = 0 ∨ sha.take pfx_len = pfx.take pfx_len) ∧
        (sha.getD pfx_len 0) >>> 4 = half_dig then
      some (sha, buff)
    else
      bruteforce_loop_with_half_dig hash fuel buff counter_offset pfx pfx_len
        ((counter + stride) % 2 ^ 64) stride half_dig

/-- Translation of `worker_t` (gitsha.c lines 26-44), without the pthread
handles.  `pfx_half_dig` is `Option Nat` because the C initialisation reads
`prefix[prefix_len - 1]`, which is out of bounds when `prefix_len == 0`;
`none` models that invalid read.  `complete` and `sha` are the worker-output
fields set by `worker_thread_main`. -/
structure worker_t where
  scratch_buff : List Nat
  scratch_len : Nat
  counter_offset : Nat
  pfx : List Nat
  pfx_len : Nat
  pfx_half_dig : Option Nat
  pfx_has_half_dig : Bool
  counter : Nat
  stride : Nat
  complete : Bool
  sha : List Nat
deriving Inhabited, DecidableEq

/-- Translation of `setup_worker` (gitsha.c lines 120-151).  `junk` stands for
the uninitialised `malloc` bytes of the nonce region, which the C code never
reads before overwriting (theorems assume `junk.length = 16` so the buffer has
its allocated extent).  In the half-digit branch the C code computes
`prefix_len - 1` in `size_t` arithmetic, i.e. `(pfx.length + (2^64 - 1)) % 2^64`,
which underflows when the prefix is empty. -/
def setup_worker (commit_data pfx : List Nat) (has_half_dig : Bool) (i ncpus : Nat)
    (junk : List Nat) : worker_t :=
  let data_length := commit_data.length + 2 + 16
  let header_length := header_len data_length
  let total_length := header_length + data_length
  { scratch_buff := header_bytes data_length ++ commit_data ++ [10, 10] ++ junk
    scratch_len := total_length
    counter_offset := header_length + commit_data.length + 2
    pfx := pfx
    pfx_len := if has_half_dig then (pfx.length + (2 ^ 64 - 1)) % 2 ^ 64 else pfx.length
    pfx_half_dig :=
      if has_half_dig then
        (pfx.get? ((pfx.length + (2 ^ 64 - 1)) % 2 ^ 64)).map (fun b => b >>> 4)
      else none
    pfx_has_half_dig := has_half_dig
    counter := i
    stride := ncpus
    complete := false
    sha := List.replicate 20 0 }

/-- The scratch buffer after `k` iterations of the search loop's mutation
(`write_counter_hex(scratch_buff + counter_offset, counter); counter += stride`),
extracted from `bruteforce_loop` to state frame properties about the buffer
evolution independently of when the loop returns. -/
def scratch_after (off stride : Nat) (buff : List Nat) (counter : Nat) : Nat → List Nat
  | 0 => buff
  | k + 1 =>
      scratch_after off stride (writeAt buff off (write_counter_hex counter))
        ((counter + stride) % 2 ^ 64) k

/-- The counter value a worker tests at its `k`-th iteration, per
`w->counter = i` (gitsha.c line 149) and `counter += stride` (line 58) in
`size_t` arithmetic. -/
def counter_at (i stride : Nat) : Nat → Nat
  | 0 => i
  | k + 1 => (counter_at i stride k + stride) % 2 ^ 64

/-- The counter value the worker would test at its `k`-th iteration if the
counter were an unbounded integer (no 64-bit wraparound). -/
def ideal_counter_at (i stride k : Nat) : Nat :=
  i + k * stride

/-- Translation of the winner scan in `start_bruteforce` (gitsha.c lines
188-195): walk the worker array in ascending index order and return
`rb_ary_new3(2, rb_str_new(scratch_buff, scratch_len), rb_str_new(sha, 20))`
for the first worker whose `complete` flag is set. -/
def select_winner : List worker_t → Option (List Nat × List Nat)
  | [] => none
  | w :: ws =>
      if w.complete then some (w.scratch_buff.take w.scratch_len, w.sha.take 20)
      else select_winner ws

/-- Ruby `VALUE` arguments as seen by the binding layer: the type tags the C
code distinguishes (`T_STRING`, `T_FIXNUM`, nil/booleans for `RTEST`, and
anything else). -/
inductive RVal where
  | str : List Nat → RVal
  | fix : Int → RVal
  | rnil : RVal
  | rbool : Bool → RVal
  | other : RVal
deriving DecidableEq

/-- The two Ruby exception classes `bruteforce` can raise. -/
inductive RbError where
  | typeError : String → RbError
  | argError : String → RbError
deriving DecidableEq

/-- Translation of Ruby's `RTEST`: everything is truthy except `nil` and `false`. -/
def rtest : RVal → Bool
  | RVal.rnil => false
  | RVal.rbool b => b
  | _ => true

/-- Test for the `TYPE(v) == T_STRING` check. -/
def is_string : RVal → Bool
  | RVal.str _ => true
  | _ => false

/-- Test for the `TYPE(v) == T_FIXNUM` check. -/
def is_fixnum : RVal → Bool
  | RVal.fix _ => true
  | _ => false

/-- The `FIX2INT` value of a fixnum (0 for non-fixnums, unused on that case). -/
def fix_val : RVal → Int
  | RVal.fix n => n
  | _ => 0

/-- The byte content of a Ruby string (empty for non-strings, unused on that case). -/
def str_bytes : RVal → List Nat
  | RVal.str s => s
  | _ => []

/-- The arguments with which `bruteforce` invokes `start_bruteforce`
(gitsha.c lines 229-235) once validation has passed. -/
structure bruteforce_call where
  commit_data : List Nat
  sha_pfx : List Nat
  has_half_dig : Bool
  ncpus : Int
deriving DecidableEq

/-- Specification-side description of the ASCII code of the hexadecimal digit
for a nibble `n < 16`: bytes of the characters `0`-`9` then `a`-`f`.  Used to
characterise `write_counter_hex` independently of the `hex_lut` table lookup. -/
def hexDigitByte (n : Nat) : Nat :=
  if n < 10 then 48 + n else 87 + n

/-- Whether the binding layer raised (returned an exception) instead of
reaching `start_bruteforce`. -/
def raises_error : Except RbError bruteforce_call → Bool
  | Except.ok _ => false
  | Except.error _ => true

/-- Translation of the binding entry point `bruteforce` (gitsha.c lines
210-236): the four validation checks in source order, then the call to
`start_bruteforce`.  An `Except.error` models `rb_raise`, which returns to the
caller before any worker is constructed. -/
def bruteforce (commit_data sha_pfx half_hex_dig ncpus : RVal) :
    Except RbError bruteforce_call :=
  match commit_data, sha_pfx with
  | RVal.str c, RVal.str p =>
    match ncpus with
    | RVal.fix n =>
      if n ≤ 0 then
        Except.error (RbError.typeError "expected ncpus to be > 0")
      else if 20 < p.length then
        Except.error (RbError.argError "expected sha_prefix to be at most 20 bytes long")
      else
        Except.ok ⟨c, p, rtest half_hex_dig, n⟩
    | _ => Except.error (RbError.typeError "expected ncpus to be a fixnum")
  | _, _ => Except.error (RbError.typeError "expected commit_data, sha_prefix to be strings")

/-! ## Helper lemmas -/

theorem hex_lut_bytes_getD (m : Nat) (h : m < 16) :
    hex_lut_bytes.getD m 0 = hexDigitByte m := by
  interval_cases m <;> decide

theorem write_counter_hex_length (c : Nat) : (write_counter_hex c).length = 16 := by
  simp [write_counter_hex]

theorem write_counter_hex_getD (c i : Nat) (h : i < 16) :
    (write_counter_hex c).getD i 0 = hexDigitByte ((c >>> (i * 4)) % 16) := by
  have hand : (c >>> (i * 4)) &&& 15 = (c >>> (i * 4)) % 16 := by
    have h4 := Nat.and_pow_two_sub_one_eq_mod (c >>> (i * 4)) 4
    norm_num at h4
    exact h4
  rw [write_counter_hex, List.getD_eq_getElem?_getD, List.getElem?_map, List.getElem?_range h]
  simp only [Option.map_some', Option.getD_some, hand]
  exact hex_lut_bytes_getD _ (Nat.mod_lt _ (by norm_num))

theorem write_counter_hex_mem (c : Nat) : ∀ b ∈ write_counter_hex c, b ∈ hex_lut_bytes := by
  intro b hb
  simp only [write_counter_hex, List.mem_map, List.mem_range] at hb
  obtain ⟨i, _, rfl⟩ := hb
  have h15 : (c >>> (i * 4)) &&& 15 < 16 := lt_of_le_of_lt Nat.and_le_right (by norm_num)
  have hlen : hex_lut_bytes.length = 16 := by decide
  rw [List.getD_eq_getElem _ _ (by omega)]
  exact List.getElem_mem _

theorem header_bytes_length (d : Nat) : (header_bytes d).length = header_len d := by
  simp only [header_bytes, header_len, List.length_append, List.length_map,
    List.length_singleton]
  rfl

theorem writeAt_length (buff xs : List Nat) (off : Nat) (h : off + xs.length ≤ buff.length) :
    (writeAt buff off xs).length = buff.length := by
  simp [writeAt]
  omega

theorem writeAt_take (buff xs : List Nat) (off : Nat) (h : off ≤ buff.length) :
    (writeAt buff off xs).take off = buff.take off := by
  simp only [writeAt, List.append_assoc]
  exact List.take_left' (by rw [List.length_take]; omega)

theorem writeAt_drop (buff xs : List Nat) (off : Nat) (h : off ≤ buff.length) :
    (writeAt buff off xs).drop (off + xs.length) = buff.drop (off + xs.length) := by
  simp only [writeAt]
  exact List.drop_left' (by rw [List.length_append, List.length_take]; omega)

theorem writeAt_append (A B C : List Nat) (h : B.length = C.length) :
    writeAt (A ++ B) A.length C = A ++ C := by
  simp only [writeAt, List.take_left, List.drop_append,
    List.drop_eq_nil_of_le (le_of_eq h), List.append_nil]

theorem bruteforce_loop_post (hash : List Nat → List Nat) :
    ∀ (fuel : Nat) (buff : List Nat) (off : Nat) (pfx : List Nat)
      (pfx_len counter stride : Nat) (sha out : List Nat),
      bruteforce_loop hash fuel buff off pfx pfx_len counter stride = some (sha, out) →
      sha.take pfx_len = pfx.take pfx_len ∧ sha = hash out := by
  intro fuel
  induction fuel with
  | zero =>
    intro buff off pfx pl c s sha out h
    simp [bruteforce_loop] at h
  | succ f ih =>
    intro buff off pfx pl c s sha out h
    rw [bruteforce_loop] at h
    split at h
    · simp only [Option.some.injEq, Prod.mk.injEq] at h
      obtain ⟨h1, h2⟩ := h
      subst h1
      subst h2
      constructor
      · assumption
      · rfl
    · exact ih _ _ _ _ _ _ _ _ h

theorem bruteforce_loop_with_half_dig_post (hash : List Nat → List Nat) :
    ∀ (fuel : Nat) (buff : List Nat) (off : Nat) (pfx : List Nat)
      (pfx_len counter stride half_dig : Nat) (sha out : List Nat),
      bruteforce_loop_with_half_dig hash fuel buff off pfx pfx_len counter stride half_dig
        = some (sha, out) →
      (pfx_len = 0 ∨ sha.take pfx_len = pfx.take pfx_len) ∧
        (sha.getD pfx_len 0) >>> 4 = half_dig ∧ sha = hash out := by
  intro fuel
  induction fuel with
  | zero =>
    intro buff off pfx pl c s hd sha out h
    simp [bruteforce_loop_with_half_dig] at h
  | succ f ih =>
    intro buff off pfx pl c s hd sha out h
    rw [bruteforce_loop_with_half_dig] at h
    split at h
    · simp only [Option.some.injEq, Prod.mk.injEq] at h
      obtain ⟨h1, h2⟩ := h
      subst h1
      subst h2
      refine ⟨?_, ?_, rfl⟩
      · exact (by assumption : _ ∧ _).1
      · exact (by assumption : _ ∧ _).2
    · exact ih _ _ _ _ _ _ _ _ _ h

theorem bruteforce_loop_shape (hash : List Nat → List Nat) :
    ∀ (fuel : Nat) (A tail : List Nat) (pfx : List Nat) (pfx_len counter stride : Nat)
      (sha out : List Nat), tail.length = 16 →
      bruteforce_loop hash fuel (A ++ tail) A.length pfx pfx_len counter stride
        = some (sha, out) →
      ∃ c, out = A ++ write_counter_hex c ∧ sha = hash out := by
  intro fuel
  induction fuel with
  | zero =>
    intro A tail pfx pl c s sha out ht h
    simp [bruteforce_loop] at h
  | succ f ih =>
    intro A tail pfx pl c s sha out ht h
    rw [bruteforce_loop] at h
    rw [writeAt_append A tail (write_counter_hex c)
      (ht.trans (write_counter_hex_length c).symm)] at h
    split at h
    · simp only [Option.some.injEq, Prod.mk.injEq] at h
      obtain ⟨h1, h2⟩ := h
      subst h1
      subst h2
      exact ⟨c, rfl, rfl⟩
    · exact ih _ (write_counter_hex c) _ _ _ _ _ _ (write_counter_hex_length c) h

theorem scratch_after_frame :
    ∀ (k : Nat) (buff : List Nat) (off stride counter : Nat), off + 16 ≤ buff.length →
      (scratch_after off stride buff counter k).take off = buff.take off ∧
      (scratch_after off stride buff counter k).length = buff.length := by
  intro k
  induction k with
  | zero =>
    intro buff off stride counter h
    exact ⟨rfl, rfl⟩
  | succ k ih =>
    intro buff off stride counter h
    have h16 := write_counter_hex_length counter
    have hlen : (writeAt buff off (write_counter_hex counter)).length = buff.length :=
      writeAt_length _ _ _ (by omega)
    obtain ⟨t1, t2⟩ := ih (writeAt buff off (write_counter_hex counter)) off stride
      ((counter + stride) % 2 ^ 64) (by omega)
    rw [scratch_after]
    refine ⟨?_, ?_⟩
    · rw [t1, writeAt_take _ _ _ (by omega)]
    · rw [t2, hlen]

theorem counter_at_closed (i stride : Nat) (h : i < 2 ^ 64) :
    ∀ k, counter_at i stride k = (i + k * stride) % 2 ^ 64 := by
  intro k
  induction k with
  | zero =>
    simp only [counter_at, Nat.zero_mul, Nat.add_zero]
    omega
  | succ k ih =>
    rw [counter_at, ih, Nat.mod_add_mod]
    ring_nf

theorem setup_worker_scratch (content p : List Nat) (hh : Bool) (i ncpus : Nat)
    (junk : List Nat) :
    (setup_worker content p hh i ncpus junk).scratch_buff
      = (header_bytes (content.length + 2 + 16) ++ content ++ [10, 10]) ++ junk
    ∧ (setup_worker content p hh i ncpus junk).counter_offset
      = (header_bytes (content.length + 2 + 16) ++ content ++ [10, 10]).length
    ∧ (setup_worker content p hh i ncpus junk).scratch_len
      = header_len (content.length + 2 + 16) + (content.length + 2 + 16) := by
  refine ⟨?_, ?_, ?_⟩
  · simp [setup_worker]
  · simp [setup_worker, List.length_append, header_bytes_length]
    omega
  · simp [setup_worker]

/-! ## Claim theorems -/

/-- C4: for every 64-bit counter, the nonce encoder writes exactly 16 ASCII hex
digit bytes, where position `i` holds the hex digit of `(counter >>> (i*4)) % 16`
(least-significant nibble first); encoding counter 1 yields the characters
`"1000000000000000"`. -/
theorem write_counter_hex_spec (counter : Nat) (h : counter < 2 ^ 64) :
    (write_counter_hex counter).length = 16 ∧
    (∀ i, i < 16 →
      (write_counter_hex counter).getD i 0 = hexDigitByte ((counter >>> (i * 4)) % 16)) ∧
    write_counter_hex 1 = "1000000000000000".toList.map Char.toNat := by
  refine ⟨write_counter_hex_length counter, ?_, by decide⟩
  intro i hi
  exact write_counter_hex_getD counter i hi

theorem write_counter_hex_spec_witness :
    (1 : Nat) < 2 ^ 64 ∧
    (write_counter_hex 1).getD 0 0 = hexDigitByte ((1 >>> (0 * 4)) % 16) ∧
    write_counter_hex 1 = "1000000000000000".toList.map Char.toNat := by
  have h := write_counter_hex_spec 1 (by norm_num)
  exact ⟨by norm_num, h.2.1 0 (by norm_num), h.2.2⟩

/-- C9: with the empty prefix and the half-nibble flag unset, the worker's
search loop matches on its very first iteration (fuel 1 suffices), and the
nonce it returns encodes the worker's initial counter, i.e. its worker index. -/
theorem empty_pfx_matches_first_iteration (hash : List Nat → List Nat)
    (content junk : List Nat) (i ncpus : Nat) (hj : junk.length = 16) :
    bruteforce_loop hash 1
        (setup_worker content [] false i ncpus junk).scratch_buff
        (setup_worker content [] false i ncpus junk).counter_offset
        (setup_worker content [] false i ncpus junk).pfx
        (setup_worker content [] false i ncpus junk).pfx_len
        (setup_worker content [] false i ncpus junk).counter
        (setup_worker content [] false i ncpus junk).stride
      = some (hash (header_bytes (content.length + 2 + 16) ++ content ++ [10, 10]
                      ++ write_counter_hex i),
              header_bytes (content.length + 2 + 16) ++ content ++ [10, 10]
                ++ write_counter_hex i) := by
  obtain ⟨hs, ho, -⟩ := setup_worker_scratch content [] false i ncpus junk
  have hpfx : (setup_worker content [] false i ncpus junk).pfx = [] := by
    simp [setup_worker]
  have hpl : (setup_worker content [] false i ncpus junk).pfx_len = 0 := by
    simp [setup_worker]
  have hcnt : (setup_worker content [] false i ncpus junk).counter = i := by
    simp [setup_worker]
  rw [hs, ho, hpfx, hpl, hcnt]
  simp only [bruteforce_loop]
  rw [writeAt_append _ _ _ (hj.trans (write_counter_hex_length i).symm)]
  simp

theorem empty_pfx_matches_first_iteration_witness :
    bruteforce_loop (fun _ => List.replicate 20 7) 1
        (setup_worker [] [] false 0 1 (List.replicate 16 48)).scratch_buff
        (setup_worker [] [] false 0 1 (List.replicate 16 48)).counter_offset
        (setup_worker [] [] false 0 1 (List.replicate 16 48)).pfx
        (setup_worker [] [] false 0 1 (List.replicate 16 48)).pfx_len
        (setup_worker [] [] false 0 1 (List.replicate 16 48)).counter
        (setup_worker [] [] false 0 1 (List.replicate 16 48)).stride
      = some ((fun _ => List.replicate 20 7)
                (header_bytes ((List.nil (α := Nat)).length + 2 + 16) ++ [] ++ [10, 10]
                  ++ write_counter_hex 0),
              header_bytes ((List.nil (α := Nat)).length + 2 + 16) ++ [] ++ [10, 10]
                ++ write_counter_hex 0) :=
  empty_pfx_matches_first_iteration (fun _ => List.replicate 20 7) [] (List.replicate 16 48)
    0 1 (by decide)

/-- C1: when the half-nibble flag is unset and the plain search loop returns,
the digest's first `len(prefix)` bytes equal the prefix exactly, and the digest
is the 20-byte hash of the returned matched-content buffer. -/
theorem matched_digest_pfx_and_hash (hash : List Nat → List Nat) (fuel : Nat)
    (content p junk : List Nat) (i ncpus : Nat) (sha out : List Nat)
    (hj : junk.length = 16) (hp : p.length ≤ 20) (hn : 1 ≤ ncpus)
    (hhl : ∀ b, (hash b).length = 20)
    (h : bruteforce_loop hash fuel
          (setup_worker content p false i ncpus junk).scratch_buff
          (setup_worker content p false i ncpus junk).counter_offset
          (setup_worker content p false i ncpus junk).pfx
          (setup_worker content p false i ncpus junk).pfx_len
          (setup_worker content p false i ncpus junk).counter
          (setup_worker content p false i ncpus junk).stride = some (sha, out)) :
    sha.take p.length = p ∧ sha = hash out ∧ sha.length = 20 := by
  have hpost := bruteforce_loop_post hash fuel _ _ _ _ _ _ _ _ h
  have hpl : (setup_worker content p false i ncpus junk).pfx_len = p.length := by
    simp [setup_worker]
  have hpp : (setup_worker content p false i ncpus junk).pfx = p := by
    simp [setup_worker]
  rw [hpl, hpp, List.take_length] at hpost
  refine ⟨hpost.1, hpost.2, ?_⟩
  rw [hpost.2]
  exact hhl out

theorem matched_digest_pfx_and_hash_witness :
    (List.range 20).take 1 = [0] ∧ (List.range 20).length = 20 := by
  have h := matched_digest_pfx_and_hash (fun _ => List.range 20) 1 [] [0]
    (List.replicate 16 48) 0 1 (List.range 20)
    (writeAt (setup_worker [] [0] false 0 1 (List.replicate 16 48)).scratch_buff
      (setup_worker [] [0] false 0 1 (List.replicate 16 48)).counter_offset
      (write_counter_hex 0))
    (by decide) (by decide) (by decide) (fun _ => by simp) (by decide)
  exact ⟨h.1, h.2.2⟩

/-- C3: whenever the plain search loop returns, the matched-content buffer is
byte-for-byte `"commit " ++ decimal(len(content) + 18) ++ NUL ++ content ++
"\n" ++ "\n" ++ 16 hex nonce characters`, the hashed length covers the whole
buffer including the header's NUL terminator, and the nonce region starts at
byte offset `len(header) + len(content) + 2`. -/
theorem matched_content_layout (hash : List Nat → List Nat) (fuel : Nat)
    (content p junk : List Nat) (i ncpus : Nat) (sha out : List Nat)
    (hj : junk.length = 16)
    (h : bruteforce_loop hash fuel
          (setup_worker content p false i ncpus junk).scratch_buff
          (setup_worker content p false i ncpus junk).counter_offset
          (setup_worker content p false i ncpus junk).pfx
          (setup_worker content p false i ncpus junk).pfx_len
          (setup_worker content p false i ncpus junk).counter
          (setup_worker content p false i ncpus junk).stride = some (sha, out)) :
    ∃ c, out = ("commit " ++ toString (content.length + 18)).toList.map Char.toNat
            ++ [0] ++ content ++ [10, 10] ++ write_counter_hex c
      ∧ (write_counter_hex c).length = 16
      ∧ (∀ b, b ∈ write_counter_hex c → b ∈ hex_lut_bytes)
      ∧ out.length = (setup_worker content p false i ncpus junk).scratch_len
      ∧ (setup_worker content p false i ncpus junk).counter_offset
          = header_len (content.length + 18) + content.length + 2 := by
  obtain ⟨hs, ho, hl⟩ := setup_worker_scratch content p false i ncpus junk
  rw [hs, ho] at h
  obtain ⟨c, hout, hsha⟩ := bruteforce_loop_shape hash fuel _ junk _ _ _ _ _ _ hj h
  have e : content.length + 2 + 16 = content.length + 18 := by omega
  refine ⟨c, ?_, write_counter_hex_length c, write_counter_hex_mem c, ?_, ?_⟩
  · rw [hout, ← e]
    simp [header_bytes, List.append_assoc]
  · rw [hl, hout]
    simp only [List.length_append, List.length_cons, List.length_nil, header_bytes_length,
      write_counter_hex_length]
    omega
  · rw [ho]
    simp only [List.length_append, List.length_cons, List.length_nil, header_bytes_length]
    try rw [e]
    try omega

theorem matched_content_layout_witness :
    ∃ c, writeAt (setup_worker [] [] false 0 1 (List.replicate 16 48)).scratch_buff
            (setup_worker [] [] false 0 1 (List.replicate 16 48)).counter_offset
            (write_counter_hex 0)
          = ("commit " ++ toString ((List.nil (α := Nat)).length + 18)).toList.map Char.toNat
            ++ [0] ++ [] ++ [10, 10] ++ write_counter_hex c
      ∧ (write_counter_hex c).length = 16
      ∧ (∀ b, b ∈ write_counter_hex c → b ∈ hex_lut_bytes)
      ∧ (writeAt (setup_worker [] [] false 0 1 (List.replicate 16 48)).scratch_buff
            (setup_worker [] [] false 0 1 (List.replicate 16 48)).counter_offset
            (write_counter_hex 0)).length
          = (setup_worker [] [] false 0 1 (List.replicate 16 48)).scratch_len
      ∧ (setup_worker [] [] false 0 1 (List.replicate 16 48)).counter_offset
          = header_len ((List.nil (α := Nat)).length + 18) + (List.nil (α := Nat)).length + 2 :=
  matched_content_layout (fun _ => List.replicate 20 7) 1 [] [] (List.replicate 16 48) 0 1
    (List.replicate 20 7)
    (writeAt (setup_worker [] [] false 0 1 (List.replicate 16 48)).scratch_buff
      (setup_worker [] [] false 0 1 (List.replicate 16 48)).counter_offset
      (write_counter_hex 0))
    (by decide) (by decide)

/-- C2: when the half-nibble flag is set, the worker's full-byte prefix length
is `len(prefix) - 1`, and a returning half-dig search loop yields a digest
whose byte at that index — the byte immediately following the full-byte prefix
region — has its high nibble equal to the nibble encoded in the last byte of
the prefix. -/
theorem half_dig_matched (hash : List Nat → List Nat) (fuel : Nat)
    (content p junk : List Nat) (i ncpus d : Nat) (sha out : List Nat)
    (hp1 : 1 ≤ p.length) (hp : p.length ≤ 20)
    (hd : (setup_worker content p true i ncpus junk).pfx_half_dig = some d)
    (h : bruteforce_loop_with_half_dig hash fuel
          (setup_worker content p true i ncpus junk).scratch_buff
          (setup_worker content p true i ncpus junk).counter_offset
          (setup_worker content p true i ncpus junk).pfx
          (setup_worker content p true i ncpus junk).pfx_len
          (setup_worker content p true i ncpus junk).counter
          (setup_worker content p true i ncpus junk).stride d = some (sha, out)) :
    (setup_worker content p true i ncpus junk).pfx_len = p.length - 1 ∧
    sha.getD (p.length - 1) 0 >>> 4 = p.getD (p.length - 1) 0 >>> 4 := by
  have hpl : (setup_worker content p true i ncpus junk).pfx_len = p.length - 1 := by
    simp only [setup_worker, if_true]
    omega
  have hpost := bruteforce_loop_with_half_dig_post hash fuel _ _ _ _ _ _ _ _ _ h
  rw [hpl] at hpost
  refine ⟨hpl, ?_⟩
  have hidx : p.get? ((p.length + (2 ^ 64 - 1)) % 2 ^ 64)
      = some (p.getD (p.length - 1) 0) := by
    have e : (p.length + (2 ^ 64 - 1)) % 2 ^ 64 = p.length - 1 := by omega
    rw [e, List.get?_eq_getElem?,
      List.getElem?_eq_getElem (show p.length - 1 < p.length by omega),
      List.getD_eq_getElem p 0 (show p.length - 1 < p.length by omega)]
  have hd2 : (p.get? ((p.length + (2 ^ 64 - 1)) % 2 ^ 64)).map (fun b => b >>> 4)
      = some d := by
    simpa [setup_worker] using hd
  rw [hidx] at hd2
  simp only [Option.map_some', Option.some.injEq] at hd2
  rw [hpost.2.1, ← hd2]

theorem half_dig_matched_witness :
    (setup_worker [] [18, 171] true 0 1 (List.replicate 16 48)).pfx_len = 1 ∧
    (18 :: 165 :: List.replicate 18 0 : List Nat).getD 1 0 >>> 4
      = ([18, 171] : List Nat).getD 1 0 >>> 4 :=
  half_dig_matched (fun _ => 18 :: 165 :: List.replicate 18 0) 1 [] [18, 171]
    (List.replicate 16 48) 0 1 10 (18 :: 165 :: List.replicate 18 0)
    (writeAt (setup_worker [] [18, 171] true 0 1 (List.replicate 16 48)).scratch_buff
      (setup_worker [] [18, 171] true 0 1 (List.replicate 16 48)).counter_offset
      (write_counter_hex 0))
    (by norm_num) (by norm_num) (by decide) (by decide)

/-- C5 counterexample: with `workerCount = 3`, worker 0's counter sequence as
actually computed (with 64-bit wraparound) reaches the value 1 at iteration
12297829382473034411, which is also worker 1's very first counter — two
distinct workers test the same counter value, so the computed sequences are
not pairwise disjoint (and, wrapping inside `[0, 2^64)`, they also never cover
naturals at or above `2^64`). -/
theorem counter_wraparound_collision :
    counter_at 0 3 12297829382473034411 = 1 ∧ counter_at 1 3 0 = 1 := by
  constructor
  · rw [counter_at_closed 0 3 (by norm_num) 12297829382473034411]
    decide
  · rfl

/-- C5 amended: worker `i` starts its counter at `i` and advances it by the
worker count `W` each iteration.  The counters as actually computed equal the
ideal unbounded counters `i + k*W` reduced `% 2^64`; it is the ideal sequences
`{i, i+W, i+2W, ...}` for `i < W` that are pairwise disjoint and jointly cover
every non-negative integer exactly once (after 64-bit wraparound two distinct
workers can test equal counter values). -/
theorem counter_partition_amended (W : Nat) (hW : 1 ≤ W) :
    (∀ i k, i < 2 ^ 64 → counter_at i W k = ideal_counter_at i W k % 2 ^ 64) ∧
    ∀ n : Nat, ∃! q : Nat × Nat, q.1 < W ∧ ideal_counter_at q.1 W q.2 = n := by
  constructor
  · intro i k hi
    rw [counter_at_closed i W hi k]
    rfl
  · intro n
    refine ⟨(n % W, n / W), ⟨Nat.mod_lt n (by omega), ?_⟩, ?_⟩
    · show n % W + n / W * W = n
      exact Nat.mod_add_div' n W
    · rintro ⟨i, k⟩ ⟨hik, he⟩
      simp only [ideal_counter_at] at he
      have hi : i = n % W := by
        rw [← he, Nat.add_mul_mod_self_right, Nat.mod_eq_of_lt hik]
      have hk : k = n / W := by
        rw [← he, Nat.add_mul_div_right i k (by omega : 0 < W), Nat.div_eq_of_lt hik]
        omega
      rw [hi, hk]

theorem counter_partition_amended_witness :
    1 ≤ 3 ∧ counter_at 0 3 2 = ideal_counter_at 0 3 2 % 2 ^ 64 ∧
    ∃! q : Nat × Nat, q.1 < 3 ∧ ideal_counter_at q.1 3 q.2 = 7 := by
  refine ⟨by norm_num, ?_, ?_⟩
  · exact (counter_partition_amended 3 (by norm_num)).1 0 2 (by norm_num)
  · exact (counter_partition_amended 3 (by norm_num)).2 7

/-- C6: the coordinator's scan walks the worker array in ascending index order
and returns the buffer/digest pair of the lowest-indexed worker whose
completion flag is set at scan time. -/
theorem select_winner_lowest_index (ws : List worker_t) (i : Nat) (hi : i < ws.length)
    (hbefore : ∀ j, j < i → (ws.getD j default).complete = false)
    (hc : (ws.getD i default).complete = true) :
    select_winner ws
      = some ((ws.getD i default).scratch_buff.take (ws.getD i default).scratch_len,
              (ws.getD i default).sha.take 20) := by
  induction ws generalizing i with
  | nil => simp at hi
  | cons w ws ih =>
    cases i with
    | zero =>
      simp only [List.getD_cons_zero] at hc ⊢
      simp [select_winner, hc]
    | succ i =>
      have hw : w.complete = false := by
        have h0 := hbefore 0 (Nat.succ_pos i)
        simpa using h0
      simp only [List.getD_cons_succ] at hc ⊢
      simp only [select_winner, hw, Bool.false_eq_true, if_false]
      exact ih i (by simpa using hi)
        (fun j hj => by simpa using hbefore (j + 1) (by omega)) hc

theorem select_winner_lowest_index_witness :
    select_winner
        [⟨[1], 1, 0, [], 0, none, false, 0, 1, false, []⟩,
         ⟨[2, 3], 2, 0, [], 0, none, false, 1, 1, true, [5]⟩]
      = some ([2, 3], [5]) := by
  have h := select_winner_lowest_index
      [⟨[1], 1, 0, [], 0, none, false, 0, 1, false, []⟩,
       ⟨[2, 3], 2, 0, [], 0, none, false, 1, 1, true, [5]⟩] 1
      (by norm_num)
      (by intro j hj; interval_cases j; decide)
      (by decide)
  exact h

/-- C7: the binding entry point raises an error if and only if `commit_data`
or `sha_prefix` is not a string, `ncpus` is not a fixnum, `ncpus <= 0`, or the
prefix is longer than 20 bytes; on every input passing these checks it calls
`start_bruteforce` with the unpacked arguments and no further validation. -/
theorem bruteforce_validation (cd sp hf nc : RVal) :
    (raises_error (bruteforce cd sp hf nc) = true ↔
      (is_string cd = false ∨ is_string sp = false ∨ is_fixnum nc = false ∨
        fix_val nc ≤ 0 ∨ 20 < (str_bytes sp).length))
    ∧ ∀ c p n, cd = RVal.str c → sp = RVal.str p → nc = RVal.fix n → 0 < n →
        p.length ≤ 20 → bruteforce cd sp hf nc = Except.ok ⟨c, p, rtest hf, n⟩ := by
  constructor
  · cases cd <;> cases sp <;> cases nc <;>
      simp [bruteforce, raises_error, is_string, is_fixnum, fix_val, str_bytes] <;>
      (try split_ifs) <;> simp_all [raises_error] <;> omega
  · rintro c p n rfl rfl rfl hpos hlen
    have h1 : ¬ (n ≤ 0) := by omega
    have h2 : ¬ (20 < p.length) := by omega
    simp [bruteforce, h1, h2]

theorem bruteforce_validation_witness :
    bruteforce (RVal.str [97]) (RVal.str [0, 1]) RVal.rnil (RVal.fix 2)
      = Except.ok ⟨[97], [0, 1], false, 2⟩ := by
  have h := (bruteforce_validation (RVal.str [97]) (RVal.str [0, 1]) RVal.rnil
      (RVal.fix 2)).2 [97] [0, 1] 2 rfl rfl rfl (by norm_num) (by norm_num)
  exact h

/-- C8: the nonce region of a worker's buffer is the final 16 bytes starting at
`counter_offset`; each loop iteration's write preserves the buffer length (no
reallocation) and every byte before `counter_offset` and from
`counter_offset + 16` on, and across any number of iterations all bytes before
`counter_offset` (header, content and the two separators) are unchanged. -/
theorem search_loop_frame (content p junk : List Nat) (hh : Bool) (i ncpus : Nat)
    (buff : List Nat) (off : Nat) (hj : junk.length = 16)
    (hbuff : buff = (setup_worker content p hh i ncpus junk).scratch_buff)
    (hoffeq : off = (setup_worker content p hh i ncpus junk).counter_offset) :
    (off + 16 = buff.length)
    ∧ (∀ c, (writeAt buff off (write_counter_hex c)).length = buff.length
        ∧ (writeAt buff off (write_counter_hex c)).take off = buff.take off
        ∧ (writeAt buff off (write_counter_hex c)).drop (off + 16)
            = buff.drop (off + 16))
    ∧ ∀ k stride c, (scratch_after off stride buff c k).take off = buff.take off
        ∧ (scratch_after off stride buff c k).length = buff.length := by
  subst hbuff
  subst hoffeq
  obtain ⟨hs, ho, -⟩ := setup_worker_scratch content p hh i ncpus junk
  have hoff : (setup_worker content p hh i ncpus junk).counter_offset + 16
      = (setup_worker content p hh i ncpus junk).scratch_buff.length := by
    rw [hs, ho]
    simp only [List.length_append, List.length_cons, List.length_nil]
    omega
  refine ⟨hoff, ?_, ?_⟩
  · intro c
    refine ⟨writeAt_length _ _ _ (by rw [write_counter_hex_length]; omega),
            writeAt_take _ _ _ (by omega), ?_⟩
    have hdrop := writeAt_drop (setup_worker content p hh i ncpus junk).scratch_buff
      (write_counter_hex c) (setup_worker content p hh i ncpus junk).counter_offset
      (by omega)
    rwa [write_counter_hex_length] at hdrop
  · intro k stride c
    exact scratch_after_frame k _ _ stride c (by omega)

theorem search_loop_frame_witness :
    (writeAt (setup_worker [] [] false 0 1 (List.replicate 16 48)).scratch_buff
        (setup_worker [] [] false 0 1 (List.replicate 16 48)).counter_offset
        (write_counter_hex 5)).take
        (setup_worker [] [] false 0 1 (List.replicate 16 48)).counter_offset
      = (setup_worker [] [] false 0 1 (List.replicate 16 48)).scratch_buff.take
          (setup_worker [] [] false 0 1 (List.replicate 16 48)).counter_offset
    ∧ (scratch_after (setup_worker [] [] false 0 1 (List.replicate 16 48)).counter_offset 1
        (setup_worker [] [] false 0 1 (List.replicate 16 48)).scratch_buff 0 3).length
      = (setup_worker [] [] false 0 1 (List.replicate 16 48)).scratch_buff.length := by
  have h := search_loop_frame [] [] (List.replicate 16 48) false 0 1
      (setup_worker [] [] false 0 1 (List.replicate 16 48)).scratch_buff
      (setup_worker [] [] false 0 1 (List.replicate 16 48)).counter_offset
      (by decide) rfl rfl
  exact ⟨(h.2.1 5).2.1, (h.2.2 3 1 0).2⟩

/-- C10: the boundary validation accepts an empty `sha_prefix` together with
the half-nibble flag, but `setup_worker` then computes the full-byte length
`prefix_len - 1` in `size_t` arithmetic, underflowing to `2^64 - 1`, and its
read of `prefix[prefix_len - 1]` falls out of bounds (one byte before the
buffer, `none` in the model); the read is in bounds whenever `1 ≤ len(prefix)`,
the unstated precondition of the half-nibble path. -/
theorem half_dig_empty_pfx_underflow (c junk : List Nat) (i ncpus : Nat)
    (hf : RVal) (n : Int) (hn : 0 < n) :
    raises_error (bruteforce (RVal.str c) (RVal.str []) hf (RVal.fix n)) = false
    ∧ (setup_worker c [] true i ncpus junk).pfx_len = 2 ^ 64 - 1
    ∧ (setup_worker c [] true i ncpus junk).pfx_half_dig = none
    ∧ ∀ p : List Nat, 1 ≤ p.length → p.length ≤ 20 →
        (setup_worker c p true i ncpus junk).pfx_half_dig
          = some (p.getD (p.length - 1) 0 >>> 4) := by
  refine ⟨?_, ?_, ?_, ?_⟩
  · have h1 : ¬ (n ≤ 0) := by omega
    simp [bruteforce, raises_error, h1]
  · simp [setup_worker]
    try omega
  · simp [setup_worker]
  · intro p hp1 hp20
    have hidx : p.get? ((p.length + (2 ^ 64 - 1)) % 2 ^ 64)
        = some (p.getD (p.length - 1) 0) := by
      have e : (p.length + (2 ^ 64 - 1)) % 2 ^ 64 = p.length - 1 := by omega
      rw [e, List.get?_eq_getElem?,
        List.getElem?_eq_getElem (show p.length - 1 < p.length by omega),
        List.getD_eq_getElem p 0 (show p.length - 1 < p.length by omega)]
    show (p.get? ((p.length + (2 ^ 64 - 1)) % 2 ^ 64)).map (fun b => b >>> 4)
        = some (p.getD (p.length - 1) 0 >>> 4)
    rw [hidx]
    rfl

theorem half_dig_empty_pfx_underflow_witness :
    raises_error (bruteforce (RVal.str [97]) (RVal.str []) RVal.rnil (RVal.fix 1)) = false
    ∧ (setup_worker [97] [] true 0 1 []).pfx_len = 2 ^ 64 - 1
    ∧ (setup_worker [97] [] true 0 1 []).pfx_half_dig = none
    ∧ (setup_worker [97] [171] true 0 1 []).pfx_half_dig
        = some (([171] : List Nat).getD 0 0 >>> 4) := by
  have h := half_dig_empty_pfx_underflow [97] [] 0 1 RVal.rnil 1 (by norm_num)
  exact ⟨h.1, h.2.1, h.2.2.1, h.2.2.2 [171] (by norm_num) (by norm_num)⟩

end GitSha
